import Mathlib

/-!
Shallow embedding of the Fourier seasonal-analysis engine
(`src/fourier_transform.cpp`) together with proofs of the specified
properties of its two classes, `FourierTransform` and
`SeasonalDecomposition`.

Modelling conventions: `double` arithmetic is modelled by exact real
numbers `ℝ`, `std::complex<double>` by `ℂ`, `std::vector` by `List`, and
`int` by `ℤ` (with `Int.tdiv` for C++ truncating division).  The source
constant `PI` (a decimal approximation of π) is read in exact real
arithmetic as the true `Real.pi`, which is the reading the specification
fixes for all exact statements.
-/

namespace FourierSpec

noncomputable section

/-- Model of the global constant `PI` of the source, read in exact real
arithmetic as the true π. -/
def PI : ℝ := Real.pi

/-- Unit complex number of angle `θ`, i.e. `std::polar(1.0, θ)`. -/
def cexpi (θ : ℝ) : ℂ := Complex.exp (θ * Complex.I)

/-- Twiddle factor `std::polar(1.0, -2 * PI * k / N)` used by `fft`. -/
def twiddle (N k : ℕ) : ℂ := cexpi (-2 * PI * k / N)

/-- Even-indexed elements `x[0], x[2], …` read by the divide step of
`fft` (which reads `x[2*i]` for `i < N/2`). -/
def evens : List ℂ → List ℂ
  | [] => []
  | [a] => [a]
  | a :: _ :: rest => a :: evens rest

/-- Odd-indexed elements `x[1], x[3], …` read by the divide step of
`fft` (which reads `x[2*i + 1]` for `i < N/2`). -/
def odds : List ℂ → List ℂ
  | [] => []
  | [_] => []
  | _ :: b :: rest => b :: odds rest

theorem length_evens : ∀ l : List ℂ, (evens l).length = (l.length + 1) / 2
  | [] => rfl
  | [_] => by simp [evens]
  | _ :: _ :: rest => by
      simp only [evens, List.length_cons, length_evens rest]
      omega

theorem length_odds : ∀ l : List ℂ, (odds l).length = l.length / 2
  | [] => rfl
  | [_] => by simp [odds]
  | _ :: _ :: rest => by
      simp only [odds, List.length_cons, length_odds rest]
      omega

theorem getD_evens : ∀ (l : List ℂ) (i : ℕ), (evens l).getD i 0 = l.getD (2 * i) 0
  | [], i => by simp [evens]
  | [a], i => by
      cases i with
      | zero => rfl
      | succ j =>
          have h2 : 2 * (j + 1) = 2 * j + 1 + 1 := by ring
          simp [evens, h2, List.getD_cons_succ]
  | a :: b :: rest, i => by
      cases i with
      | zero => rfl
      | succ j =>
          have h2 : 2 * (j + 1) = 2 * j + 1 + 1 := by ring
          simp only [evens, h2, List.getD_cons_succ]
          exact getD_evens rest j

theorem getD_odds : ∀ (l : List ℂ) (i : ℕ), (odds l).getD i 0 = l.getD (2 * i + 1) 0
  | [], i => by simp [odds]
  | [a], i => by
      cases i with
      | zero => rfl
      | succ j =>
          have h2 : 2 * (j + 1) + 1 = 2 * j + 1 + 1 + 1 := by ring
          simp [odds, h2, List.getD_cons_succ]
  | a :: b :: rest, i => by
      cases i with
      | zero => rfl
      | succ j =>
          have h2 : 2 * (j + 1) + 1 = 2 * j + 1 + 1 + 1 := by ring
          simp only [odds, h2, List.getD_cons_succ]
          exact getD_odds rest j

/-- Recursive Cooley-Tukey routine `FourierTransform::fft`, modelled
functionally.  The divide step reads indices `0, …, 2*(N/2) - 1` of the
buffer; the combine step writes indices `k` and `k + N/2` for `k < N/2`;
any remaining tail entry (present exactly when `N` is odd) keeps its
original value, exactly as the in-place C++ routine leaves it. -/
def fft (x : List ℂ) : List ℂ :=
  if _h : x.length ≤ 1 then x
  else
    (List.range (x.length / 2)).map (fun k =>
        (fft (evens (x.take (2 * (x.length / 2))))).getD k 0
          + twiddle x.length k * (fft (odds (x.take (2 * (x.length / 2))))).getD k 0)
      ++ ((List.range (x.length / 2)).map (fun k =>
        (fft (evens (x.take (2 * (x.length / 2))))).getD k 0
          - twiddle x.length k * (fft (odds (x.take (2 * (x.length / 2))))).getD k 0)
      ++ x.drop (2 * (x.length / 2)))
termination_by x.length
decreasing_by
  all_goals
    simp only [length_evens, length_odds, List.length_take]
    omega

theorem length_fft (x : List ℂ) : (fft x).length = x.length := by
  rw [fft]
  split
  · rfl
  · simp only [List.length_append, List.length_map, List.length_range, List.length_drop]
    omega

/-- Inverse transform `FourierTransform::ifft`: conjugate every entry,
apply the forward transform, conjugate every result and divide by the
buffer length at entry. -/
def ifft (x : List ℂ) : List ℂ :=
  (fft (x.map fun z => (starRingEnd ℂ) z)).map fun z => (starRingEnd ℂ) z / (x.length : ℂ)

/-- Discrete Fourier transform of a list: entry `k` is
`∑ j, x[j] · exp(-2·π·i·j·k/N)`.  This is the closed form that the
recursive `fft` realises on power-of-two lengths; it is used as the
stepping stone for the inverse round-trip proof. -/
def dft (x : List ℂ) : List ℂ :=
  (List.range x.length).map fun k =>
    ∑ j ∈ Finset.range x.length, x.getD j 0 * twiddle x.length (j * k)

/-- Padding loop of `FourierTransform::compute`: starting from `acc`,
double while below `n`.  The source starts the loop at `1`; the guard
`0 < acc` (always true at the call site) only makes the model total. -/
def padLoop (n acc : ℕ) : ℕ :=
  if h : 0 < acc ∧ acc < n then padLoop n (2 * acc) else acc
termination_by n - acc
decreasing_by omega

/-- Size `padded_size` computed by `FourierTransform::compute` for an
input buffer of length `n`. -/
def paddedSize (n : ℕ) : ℕ := padLoop n 1

/-- Model of the `FourierTransform` constructor: the real samples become
complex entries with zero imaginary part; no padding yet and no check. -/
def ftInit (input : List ℝ) : List ℂ := input.map fun (r : ℝ) => (r : ℂ)

/-- Model of `FourierTransform::compute`: copy the buffer into a
zero-padded buffer of length `paddedSize n` and apply `fft` to it; the
result replaces the owned buffer. -/
def compute (data : List ℂ) : List ℂ :=
  fft ((List.range (paddedSize data.length)).map fun i =>
    if i < data.length then data.getD i 0 else 0)

/-- Model of `FourierTransform::getMagnitudeSpectrum`: Euclidean norms of
the first half of the buffer. -/
def getMagnitudeSpectrum (data : List ℂ) : List ℝ :=
  (List.range (data.length / 2)).map fun i => Complex.abs (data.getD i 0)

/-- Insertion of one (bin, magnitude) pair into a list sorted by
magnitude descending: walk past `q` exactly when `q` has strictly larger
magnitude. -/
def insertPair (p : ℕ × ℝ) : List (ℕ × ℝ) → List (ℕ × ℝ)
  | [] => [p]
  | q :: qs => if q.2 > p.2 then q :: insertPair p qs else p :: q :: qs

/-- Sorting step of `FourierTransform::getDominantFrequencies`.  The
source performs it with `std::sort` under the comparator
`a.second > b.second`, which sorts by magnitude descending but leaves
the relative order of magnitude ties unspecified.  A functional model
must pick one outcome; this insertion sort is the deterministic
refinement that keeps ties in ascending bin order (each earlier pair is
inserted in front of the pairs of equal magnitude).  The tie order is a
refinement choice, not a guarantee of the source: `std::sort` promises
only the descending magnitude order. -/
def sortPairs : List (ℕ × ℝ) → List (ℕ × ℝ)
  | [] => []
  | p :: ps => insertPair p (sortPairs ps)

/-- Model of `FourierTransform::getDominantFrequencies`: pair every bin
`1 ≤ i < magnitude.length` with its magnitude, sort by magnitude
descending and keep the first `min(top_k, count)` pairs (so a
non-positive `top_k` keeps nothing and an oversized one keeps all). -/
def getDominantFrequencies (data : List ℂ) (top_k : ℤ) : List (ℕ × ℝ) :=
  (sortPairs ((List.range' 1 ((getMagnitudeSpectrum data).length - 1)).map fun i =>
    (i, (getMagnitudeSpectrum data).getD i 0))).take top_k.toNat

/-- State of a `SeasonalDecomposition` object: the original series, the
three derived series and the period. -/
structure SeasonalDecomposition where
  original : List ℝ
  trend : List ℝ
  seasonal : List ℝ
  residual : List ℝ
  period : ℤ

/-- Model of the `SeasonalDecomposition` constructor: store the data and
the period without any check and allocate trend/seasonal/residual at the
input's length, zero-filled (`std::vector<double>::resize`
value-initialises new entries to `0.0`). -/
def mkSeasonalDecomposition (data : List ℝ) (period : ℤ) : SeasonalDecomposition :=
  ⟨data, List.replicate data.length 0, List.replicate data.length 0,
    List.replicate data.length 0, period⟩

/-- Window offsets `j ∈ [-(period/2), period/2]` scanned by
`extractTrend` (C++ `int` division truncates toward zero, `Int.tdiv`). -/
def windowRange (period : ℤ) : Finset ℤ :=
  Finset.Icc (-(Int.tdiv period 2)) (Int.tdiv period 2)

/-- Count of in-range samples in the moving-average window at index `i`
of a series of length `n`, as accumulated by `extractTrend`. -/
def windowCount (n : ℕ) (period : ℤ) (i : ℕ) : ℕ :=
  ((windowRange period).filter fun j => 0 ≤ (i : ℤ) + j ∧ (i : ℤ) + j < (n : ℤ)).card

/-- Sum of the in-range samples in the moving-average window at index
`i`, as accumulated by `extractTrend`. -/
def windowSum (orig : List ℝ) (period : ℤ) (i : ℕ) : ℝ :=
  ∑ j ∈ (windowRange period).filter
      (fun j => 0 ≤ (i : ℤ) + j ∧ (i : ℤ) + j < (orig.length : ℤ)),
    orig.getD ((i : ℤ) + j).toNat 0

/-- Model of `SeasonalDecomposition::extractTrend`: centred moving
average with a divisor that shrinks to the number of in-range samples
near the boundaries. -/
def extractTrend (s : SeasonalDecomposition) : SeasonalDecomposition :=
  { s with trend := (List.range s.original.length).map fun i =>
      windowSum s.original s.period i / (windowCount s.original.length s.period i : ℝ) }

/-- Detrended series `original[i] - trend[i]` formed at the start of
`extractSeasonal`. -/
def detrendedSeries (s : SeasonalDecomposition) : List ℝ :=
  (List.range s.original.length).map fun i => s.original.getD i 0 - s.trend.getD i 0

/-- Arithmetic mean of a list of reals (sum divided by length). -/
def listMean (l : List ℝ) : ℝ := l.sum / l.length

/-- Cosine reconstruction loop of `extractSeasonal`: entry `i` sums
`(magnitude/n) * cos(2·PI·k·i/n)` over the top-3 dominant frequencies of
the transformed detrended series. -/
def seasonalRaw (s : SeasonalDecomposition) : List ℝ :=
  (List.range s.seasonal.length).map fun (i : ℕ) =>
    ((getDominantFrequencies (compute (ftInit (detrendedSeries s))) 3).map fun p =>
      p.2 / (s.seasonal.length : ℝ) *
        Real.cos (2 * PI * (p.1 : ℝ) * (i : ℝ) / (s.seasonal.length : ℝ))).sum

/-- Model of `SeasonalDecomposition::extractSeasonal`: cosine
reconstruction from the dominant frequencies of the detrended series,
then subtraction of the mean of the reconstructed sequence from every
entry. -/
def extractSeasonal (s : SeasonalDecomposition) : SeasonalDecomposition :=
  { s with seasonal := (seasonalRaw s).map fun v => v - listMean (seasonalRaw s) }

/-- Model of `SeasonalDecomposition::extractResidual`:
`residual[i] = original[i] - trend[i] - seasonal[i]`. -/
def extractResidual (s : SeasonalDecomposition) : SeasonalDecomposition :=
  { s with residual := (List.range s.original.length).map fun i =>
      s.original.getD i 0 - s.trend.getD i 0 - s.seasonal.getD i 0 }

/-- Model of `SeasonalDecomposition::decompose`: trend, then seasonal,
then residual. -/
def decompose (s : SeasonalDecomposition) : SeasonalDecomposition :=
  extractResidual (extractSeasonal (extractTrend s))

theorem getD_map_range {α : Type} (f : ℕ → α) (d : α) (n i : ℕ) (h : i < n) :
    ((List.range n).map f).getD i d = f i := by
  rw [List.getD_eq_getElem _ d (by simpa using h)]
  simp

theorem getD_replicate {α : Type} (d : α) (n i : ℕ) :
    (List.replicate n d).getD i d = d := by
  rcases lt_or_ge i n with h | h
  · rw [List.getD_eq_getElem _ d (by simpa using h)]
    simp
  · exact List.getD_eq_default _ _ (by simpa using h)

theorem sum_map_sub_const : ∀ (l : List ℝ) (c : ℝ),
    (l.map fun v => v - c).sum = l.sum - l.length * c
  | [], c => by simp
  | a :: l, c => by
      simp only [List.map_cons, List.sum_cons, sum_map_sub_const l c, List.length_cons]
      push_cast
      ring

/-- C9: on a freshly constructed decomposer (no prior stage has run),
`extractResidual()` raises no error and uses the zero-initialized trend
and seasonal buffers, so it copies the original series into the
residual: `residual[i] = original[i]` for every `i`. -/
theorem extractResidual_fresh (data : List ℝ) (period : ℤ) (_h : data ≠ []) :
    (extractResidual (mkSeasonalDecomposition data period)).residual = data := by
  apply List.ext_getElem
  · simp [extractResidual, mkSeasonalDecomposition]
  · intro i h1 h2
    have hi : i < data.length := h2
    simp only [extractResidual, mkSeasonalDecomposition, List.getElem_map,
      List.getElem_range]
    rw [List.getD_eq_getElem _ 0 hi]
    simp [getD_replicate]

/-- C9 witness: a decomposer freshly built over `[1, 2]` with period 3
gets residual `[1, 2]` from `extractResidual()` alone. -/
theorem extractResidual_fresh_witness :
    ([(1 : ℝ), 2] ≠ []) ∧
      (extractResidual (mkSeasonalDecomposition [(1 : ℝ), 2] 3)).residual = [1, 2] :=
  ⟨by simp, extractResidual_fresh [(1 : ℝ), 2] 3 (by simp)⟩

/-- C10: for every index `i` of a series of length `n` and every period
at least 1, the moving-average window of `extractTrend` contains index
`i` itself, so the accumulated count is at least 1 and the division
`sum / count` never divides by zero. -/
theorem windowCount_pos (n : ℕ) (period : ℤ) (i : ℕ) (hi : i < n) (hp : 1 ≤ period) :
    1 ≤ windowCount n period i ∧ ((windowCount n period i : ℝ)) ≠ 0 := by
  have h0 : (0 : ℤ) ∈ (windowRange period).filter
      (fun j => 0 ≤ (i : ℤ) + j ∧ (i : ℤ) + j < (n : ℤ)) := by
    rw [Finset.mem_filter, windowRange, Finset.mem_Icc]
    have htd : 0 ≤ Int.tdiv period 2 := Int.tdiv_nonneg (by omega) (by norm_num)
    exact ⟨⟨by omega, htd⟩, by omega, by omega⟩
  have hcard : 0 < windowCount n period i := Finset.card_pos.mpr ⟨0, h0⟩
  exact ⟨hcard, Nat.cast_ne_zero.mpr (by omega)⟩

/-- C10 witness: at `n = 3`, `i = 1`, `period = 2` the window count is
positive. -/
theorem windowCount_pos_witness :
    (1 < 3 ∧ (1 : ℤ) ≤ 2) ∧
      (1 ≤ windowCount 3 2 1 ∧ ((windowCount 3 2 1 : ℝ)) ≠ 0) :=
  ⟨⟨by norm_num, by norm_num⟩, windowCount_pos 3 2 1 (by norm_num) (by norm_num)⟩

/-- C7: the `FourierTransform` constructor performs no input check: on an
empty sample sequence it silently builds an object with an empty buffer
instead of failing with an InvalidInput error. -/
theorem ftInit_empty_accepted : ftInit [] = [] ∧ (ftInit []).length = 0 :=
  ⟨rfl, rfl⟩

/-- C8: the `SeasonalDecomposition` constructor performs no period
check: with `period = 0 < 1` it silently builds an object holding the
data, the period, and zero-initialized buffers of the input's length,
instead of failing with an InvalidInput error. -/
theorem mkSeasonalDecomposition_period_zero_accepted :
    (0 : ℤ) < 1 ∧
      mkSeasonalDecomposition [(1 : ℝ), 2] 0 =
        { original := [1, 2], trend := [0, 0], seasonal := [0, 0],
          residual := [0, 0], period := 0 } :=
  ⟨by norm_num, rfl⟩

/-- C1: after `decompose()` runs on any non-empty series with any period
at least 1, `trend[i] + seasonal[i] + residual[i] = original[i]` at every
index, because `extractResidual` defines
`residual[i] = original[i] - trend[i] - seasonal[i]`. -/
theorem decompose_reconstructs (data : List ℝ) (period : ℤ) (i : ℕ)
    (_hne : data ≠ []) (_hp : 1 ≤ period) (hi : i < data.length) :
    (decompose (mkSeasonalDecomposition data period)).trend.getD i 0
      + (decompose (mkSeasonalDecomposition data period)).seasonal.getD i 0
      + (decompose (mkSeasonalDecomposition data period)).residual.getD i 0
      = data.getD i 0 := by
  set s2 := extractSeasonal (extractTrend (mkSeasonalDecomposition data period)) with hs2
  have ht : (decompose (mkSeasonalDecomposition data period)).trend = s2.trend := rfl
  have hsea : (decompose (mkSeasonalDecomposition data period)).seasonal = s2.seasonal := rfl
  have hres : (decompose (mkSeasonalDecomposition data period)).residual
      = (List.range s2.original.length).map fun j =>
          s2.original.getD j 0 - s2.trend.getD j 0 - s2.seasonal.getD j 0 := rfl
  have horig : s2.original = data := rfl
  rw [ht, hsea, hres]
  simp only [horig]
  rw [getD_map_range _ _ _ _ hi]
  ring

/-- C1 witness: at `data = [1, 2]`, `period = 1`, `i = 0` the three
components add back to the original entry. -/
theorem decompose_reconstructs_witness :
    ([(1 : ℝ), 2] ≠ [] ∧ (1 : ℤ) ≤ 1 ∧ 0 < [(1 : ℝ), 2].length) ∧
      (decompose (mkSeasonalDecomposition [(1 : ℝ), 2] 1)).trend.getD 0 0
        + (decompose (mkSeasonalDecomposition [(1 : ℝ), 2] 1)).seasonal.getD 0 0
        + (decompose (mkSeasonalDecomposition [(1 : ℝ), 2] 1)).residual.getD 0 0
        = [(1 : ℝ), 2].getD 0 0 :=
  ⟨⟨by simp, le_refl 1, by simp⟩,
    decompose_reconstructs [(1 : ℝ), 2] 1 0 (by simp) (le_refl 1) (by simp)⟩

/-- C5: after `extractSeasonal()` runs (with the trend already
extracted), the arithmetic mean of the seasonal sequence is exactly zero
in exact real arithmetic, because the mean of the cosine reconstruction
is subtracted from every entry. -/
theorem extractSeasonal_zero_mean (data : List ℝ) (period : ℤ) (hne : data ≠ [])
    (_hp : 1 ≤ period) :
    listMean ((extractSeasonal (extractTrend (mkSeasonalDecomposition data period))).seasonal)
      = 0 := by
  set s := extractTrend (mkSeasonalDecomposition data period) with hs
  have hslen : s.seasonal.length = data.length := by
    rw [hs]
    simp [extractTrend, mkSeasonalDecomposition]
  have hraw : (seasonalRaw s).length = data.length := by
    simp only [seasonalRaw, List.length_map, List.length_range]
    exact hslen
  have hn : (data.length : ℝ) ≠ 0 :=
    Nat.cast_ne_zero.mpr (by simpa [List.length_eq_zero] using hne)
  have hsea : (extractSeasonal s).seasonal
      = (seasonalRaw s).map fun v => v - listMean (seasonalRaw s) := rfl
  rw [listMean, hsea, sum_map_sub_const, List.length_map, hraw, listMean, hraw]
  have hcancel : (data.length : ℝ) * ((seasonalRaw s).sum / (data.length : ℝ))
      = (seasonalRaw s).sum := by
    field_simp
  rw [hcancel, sub_self, zero_div]

/-- C5 witness: with `data = [1, 2]` and `period = 1` the seasonal
sequence produced by trend extraction followed by seasonal extraction
has mean zero. -/
theorem extractSeasonal_zero_mean_witness :
    ([(1 : ℝ), 2] ≠ [] ∧ (1 : ℤ) ≤ 1) ∧
      listMean ((extractSeasonal (extractTrend
        (mkSeasonalDecomposition [(1 : ℝ), 2] 1))).seasonal) = 0 :=
  ⟨⟨by simp, le_refl 1⟩,
    extractSeasonal_zero_mean [(1 : ℝ), 2] 1 (by simp) (le_refl 1)⟩

theorem fft_single (a : ℂ) : fft [a] = [a] := by
  rw [fft]
  simp

theorem twiddle_k_zero (N : ℕ) : twiddle N 0 = 1 := by
  simp [twiddle, cexpi]

/-- C6: the low-level `fft` routine has no power-of-two precondition
check: on the length-3 buffer `[1, 1, 1]` (not a power of two) it
silently recurses, combines the first two entries, leaves the third
untouched, and returns `[2, 0, 1]` instead of failing fast with an
InvalidInput error. -/
theorem fft_non_pow_two_silent :
    (∀ m : ℕ, ([(1 : ℂ), 1, 1]).length ≠ 2 ^ m) ∧
      fft [(1 : ℂ), 1, 1] = [2, 0, 1] := by
  constructor
  · intro m hm
    simp only [List.length_cons, List.length_nil] at hm
    rcases m with _ | _ | m
    · simp at hm
    · simp at hm
    · have h4 : 4 ≤ 2 ^ (m + 2) := by
        calc (4 : ℕ) = 2 ^ 2 := by norm_num
        _ ≤ 2 ^ (m + 2) := Nat.pow_le_pow_right (by norm_num) (by omega)
      omega
  · rw [fft]
    norm_num [evens, odds, twiddle_k_zero, fft_single, List.range_succ,
      List.range_zero, List.take_succ_cons, List.take_zero, List.drop_succ_cons,
      List.drop_zero, List.getD_cons_zero]

/-- C2: the claimed tie-break (stable sort, magnitude ties in ascending
bin order) is not guaranteed by the code, which sorts with `std::sort`
under the comparator `a.second > b.second`: the C++ standard leaves the
relative order of elements the comparator orders in neither direction
unspecified (only `std::stable_sort` would guarantee the claim).  On the
transformed buffer `[0, 5, 5, 0, 0, 0, 0, 0]` of length 8 the considered
bins 1 and 2 (both below `P/2 = 4`) carry the equal magnitude 5, so the
comparator holds in neither direction between their pairs and the code
fixes no order between them, while the claim promises bin 1 before
bin 2. -/
theorem getDominantFrequencies_tie_unspecified :
    (getMagnitudeSpectrum [(0 : ℂ), 5, 5, 0, 0, 0, 0, 0]).getD 1 0
        = (getMagnitudeSpectrum [(0 : ℂ), 5, 5, 0, 0, 0, 0, 0]).getD 2 0
      ∧ (getMagnitudeSpectrum [(0 : ℂ), 5, 5, 0, 0, 0, 0, 0]).getD 1 0 = 5
      ∧ 1 < [(0 : ℂ), 5, 5, 0, 0, 0, 0, 0].length / 2
      ∧ 2 < [(0 : ℂ), 5, 5, 0, 0, 0, 0, 0].length / 2 := by
  have h1 : (getMagnitudeSpectrum [(0 : ℂ), 5, 5, 0, 0, 0, 0, 0]).getD 1 0 = 5 := by
    rw [getMagnitudeSpectrum, getD_map_range _ _ _ _ (by norm_num)]
    simp [List.getD_cons_succ, List.getD_cons_zero, Complex.abs_ofNat]
  have h2 : (getMagnitudeSpectrum [(0 : ℂ), 5, 5, 0, 0, 0, 0, 0]).getD 2 0 = 5 := by
    rw [getMagnitudeSpectrum, getD_map_range _ _ _ _ (by norm_num)]
    simp [List.getD_cons_succ, List.getD_cons_zero, Complex.abs_ofNat]
  exact ⟨by rw [h1, h2], h1, by norm_num, by norm_num⟩

theorem padLoop_of_not (n acc : ℕ) (h : ¬(0 < acc ∧ acc < n)) : padLoop n acc = acc := by
  rw [padLoop]
  simp [h]

theorem padLoop_ge (n acc : ℕ) (h : 0 < acc) : n ≤ padLoop n acc := by
  rw [padLoop]
  split
  · exact padLoop_ge n (2 * acc) (by omega)
  · omega
termination_by n - acc
decreasing_by omega

theorem padLoop_pow (n acc k : ℕ) (h : acc = 2 ^ k) : ∃ j, padLoop n acc = 2 ^ j := by
  rw [padLoop]
  split
  · exact padLoop_pow n (2 * acc) (k + 1) (by rw [h]; ring)
  · exact ⟨k, h⟩
termination_by n - acc
decreasing_by omega

theorem padLoop_half_lt (n acc : ℕ) (h : 0 < acc) (hlt : acc < n) :
    padLoop n acc / 2 < n := by
  rw [padLoop, dif_pos ⟨h, hlt⟩]
  by_cases h2 : 2 * acc < n
  · exact padLoop_half_lt n (2 * acc) (by omega) h2
  · rw [padLoop_of_not n (2 * acc) (by omega)]
    omega
termination_by n - acc
decreasing_by omega

/-- C3: for every non-empty input, `compute()` pads the buffer to the
smallest power of two at least the input length: the padded size is a
power of two, at least `n`, minimal among powers of two that are at
least `n`; the transformed buffer has exactly that length; and the
buffer handed to the transform is the original coefficients followed by
zero entries. -/
theorem compute_padding_spec (input : List ℝ) (hne : input ≠ []) :
    (∃ k, paddedSize input.length = 2 ^ k)
      ∧ input.length ≤ paddedSize input.length
      ∧ (∀ j : ℕ, input.length ≤ 2 ^ j → paddedSize input.length ≤ 2 ^ j)
      ∧ (compute (ftInit input)).length = paddedSize input.length
      ∧ (List.range (paddedSize input.length)).map
            (fun i => if i < input.length then (ftInit input).getD i 0 else 0)
          = ftInit input ++ List.replicate (paddedSize input.length - input.length) 0
      ∧ compute (ftInit input)
          = fft (ftInit input ++ List.replicate (paddedSize input.length - input.length) 0) := by
  have hlen : (ftInit input).length = input.length := by simp [ftInit]
  have hn : 0 < input.length := List.length_pos.mpr hne
  have hpow : ∃ k, paddedSize input.length = 2 ^ k := padLoop_pow _ 1 0 (by norm_num)
  have hge : input.length ≤ paddedSize input.length := padLoop_ge _ 1 (by norm_num)
  have hmin : ∀ j : ℕ, input.length ≤ 2 ^ j → paddedSize input.length ≤ 2 ^ j := by
    intro j hj
    by_cases h1 : input.length ≤ 1
    · have he : input.length = 1 := by omega
      rw [he] at hj ⊢
      rw [paddedSize, padLoop_of_not _ _ (by omega)]
      exact Nat.one_le_two_pow
    · obtain ⟨K, hK⟩ := hpow
      have hhalf : paddedSize input.length / 2 < input.length :=
        padLoop_half_lt _ 1 (by norm_num) (by omega)
      rcases Nat.eq_zero_or_pos K with rfl | hKpos
      · rw [hK]
        simpa using Nat.one_le_two_pow
      · have hKhalf : 2 ^ (K - 1) = paddedSize input.length / 2 := by
          rw [hK]
          rcases K with _ | K0
          · omega
          · simp only [Nat.add_sub_cancel, Nat.pow_succ]
            rw [Nat.mul_div_cancel _ (by norm_num)]
        have h2 : 2 ^ (K - 1) < 2 ^ j := by omega
        have hKj : K - 1 < j := (Nat.pow_lt_pow_iff_right (by norm_num)).mp h2
        rw [hK]
        exact Nat.pow_le_pow_right (by norm_num) (by omega)
  have hlencompute : (compute (ftInit input)).length = paddedSize input.length := by
    rw [compute, length_fft, List.length_map, List.length_range, hlen]
  have hpad : (List.range (paddedSize input.length)).map
        (fun i => if i < input.length then (ftInit input).getD i 0 else 0)
      = ftInit input ++ List.replicate (paddedSize input.length - input.length) 0 := by
    apply List.ext_getElem
    · simp only [List.length_map, List.length_range, List.length_append,
        List.length_replicate, hlen]
      omega
    · intro i h1 h2
      simp only [List.length_map, List.length_range] at h1
      simp only [List.getElem_map, List.getElem_range]
      by_cases hcase : i < input.length
      · rw [if_pos hcase, List.getElem_append_left (by rw [hlen]; exact hcase)]
        exact List.getD_eq_getElem _ _ (by rw [hlen]; exact hcase)
      · rw [if_neg hcase, List.getElem_append_right (by rw [hlen]; omega)]
        simp
  have hceq : compute (ftInit input)
      = fft (ftInit input ++ List.replicate (paddedSize input.length - input.length) 0) := by
    rw [compute]
    simp only [hlen]
    rw [hpad]
  exact ⟨hpow, hge, hmin, hlencompute, hpad, hceq⟩

/-- C3 witness: the claim instantiated at the one-element input `[1]`
(whose padded size is 1 = 2^0). -/
theorem compute_padding_spec_witness :
    ([(1 : ℝ)] ≠ []) ∧
      ((∃ k, paddedSize [(1 : ℝ)].length = 2 ^ k)
        ∧ [(1 : ℝ)].length ≤ paddedSize [(1 : ℝ)].length
        ∧ (∀ j : ℕ, [(1 : ℝ)].length ≤ 2 ^ j → paddedSize [(1 : ℝ)].length ≤ 2 ^ j)
        ∧ (compute (ftInit [(1 : ℝ)])).length = paddedSize [(1 : ℝ)].length
        ∧ (List.range (paddedSize [(1 : ℝ)].length)).map
              (fun i => if i < [(1 : ℝ)].length then (ftInit [(1 : ℝ)]).getD i 0 else 0)
            = ftInit [(1 : ℝ)]
                ++ List.replicate (paddedSize [(1 : ℝ)].length - [(1 : ℝ)].length) 0
        ∧ compute (ftInit [(1 : ℝ)])
            = fft (ftInit [(1 : ℝ)]
                ++ List.replicate (paddedSize [(1 : ℝ)].length - [(1 : ℝ)].length) 0)) :=
  ⟨by simp, compute_padding_spec [(1 : ℝ)] (by simp)⟩

theorem cexpi_add (a b : ℝ) : cexpi (a + b) = cexpi a * cexpi b := by
  rw [cexpi, cexpi, cexpi, ← Complex.exp_add]
  congr 1
  push_cast
  ring

theorem cexpi_zero : cexpi 0 = 1 := by simp [cexpi]

theorem conj_cexpi (θ : ℝ) : (starRingEnd ℂ) (cexpi θ) = cexpi (-θ) := by
  rw [cexpi, ← Complex.exp_conj, map_mul, Complex.conj_ofReal, Complex.conj_I, cexpi]
  congr 1
  push_cast
  ring

theorem cexpi_nat_mul (n : ℕ) (θ : ℝ) : cexpi (n * θ) = cexpi θ ^ n := by
  rw [cexpi, cexpi, ← Complex.exp_nat_mul]
  congr 1
  push_cast
  ring

theorem cexpi_neg_pi : cexpi (-PI) = -1 := by
  rw [cexpi, show ((-PI : ℝ) : ℂ) * Complex.I = -(↑Real.pi * Complex.I) by
    rw [PI]; push_cast; ring]
  rw [Complex.exp_neg, Complex.exp_pi_mul_I]
  norm_num

theorem cexpi_int_two_pi (t : ℤ) : cexpi (2 * PI * t) = 1 := by
  rw [cexpi, show ((2 * PI * t : ℝ) : ℂ) * Complex.I = t * (2 * ↑Real.pi * Complex.I) by
    rw [PI]; push_cast; ring]
  exact Complex.exp_int_mul_two_pi_mul_I t

theorem cexpi_eq_one_iff (θ : ℝ) : cexpi θ = 1 ↔ ∃ t : ℤ, θ = t * (2 * PI) := by
  rw [cexpi, Complex.exp_eq_one_iff]
  constructor
  · rintro ⟨t, ht⟩
    refine ⟨t, ?_⟩
    have hI : (↑θ : ℂ) * Complex.I = (↑(t * (2 * PI) : ℝ) : ℂ) * Complex.I := by
      rw [ht, PI]
      push_cast
      ring
    have h2 : (↑θ : ℂ) = ↑(t * (2 * PI) : ℝ) := mul_right_cancel₀ Complex.I_ne_zero hI
    exact_mod_cast h2
  · rintro ⟨t, rfl⟩
    exact ⟨t, by rw [PI]; push_cast; ring⟩

theorem twiddle_add (N a b : ℕ) : twiddle N (a + b) = twiddle N a * twiddle N b := by
  rw [twiddle, twiddle, twiddle, ← cexpi_add]
  congr 1
  push_cast
  ring

theorem twiddle_two_mul (M a : ℕ) (hM : (M : ℝ) ≠ 0) :
    twiddle (2 * M) (2 * a) = twiddle M a := by
  rw [twiddle, twiddle]
  congr 1
  push_cast
  field_simp
  ring

theorem twiddle_half (M j : ℕ) (hM : (M : ℝ) ≠ 0) :
    twiddle (2 * M) (j * M) = (-1) ^ j := by
  rw [twiddle]
  have hang : -2 * PI * ((j * M : ℕ) : ℝ) / ((2 * M : ℕ) : ℝ) = j * (-PI) := by
    push_cast
    field_simp
    ring
  rw [hang, cexpi_nat_mul, cexpi_neg_pi]

theorem conj_twiddle (N a : ℕ) :
    (starRingEnd ℂ) (twiddle N a) = cexpi (2 * PI * a / N) := by
  rw [twiddle, conj_cexpi]
  congr 1
  ring

theorem sum_range_even_odd (M : ℕ) (f : ℕ → ℂ) :
    ∑ j ∈ Finset.range (2 * M), f j
      = ∑ i ∈ Finset.range M, f (2 * i) + ∑ i ∈ Finset.range M, f (2 * i + 1) := by
  induction M with
  | zero => simp
  | succ m ih =>
      have h2 : 2 * (m + 1) = 2 * m + 1 + 1 := by ring
      rw [h2, Finset.sum_range_succ, Finset.sum_range_succ, Finset.sum_range_succ,
        Finset.sum_range_succ, ih]
      abel

theorem length_dft (x : List ℂ) : (dft x).length = x.length := by
  simp [dft]

theorem getD_dft (x : List ℂ) (k : ℕ) (hk : k < x.length) :
    (dft x).getD k 0
      = ∑ j ∈ Finset.range x.length, x.getD j 0 * twiddle x.length (j * k) := by
  rw [dft, getD_map_range _ _ _ _ hk]

theorem getD_append_left {α : Type} (l₁ l₂ : List α) (d : α) (n : ℕ) (h : n < l₁.length) :
    (l₁ ++ l₂).getD n d = l₁.getD n d := by
  rw [List.getD_eq_getElem _ d (by simp only [List.length_append]; omega),
    List.getElem_append_left h, List.getD_eq_getElem _ d h]

theorem getD_append_right {α : Type} (l₁ l₂ : List α) (d : α) (n : ℕ)
    (h : l₁.length ≤ n) (h2 : n < l₁.length + l₂.length) :
    (l₁ ++ l₂).getD n d = l₂.getD (n - l₁.length) d := by
  rw [List.getD_eq_getElem _ d (by simp only [List.length_append]; omega),
    List.getElem_append_right h, List.getD_eq_getElem _ d (by omega)]

theorem fft_eq_dft : ∀ (m : ℕ) (x : List ℂ), x.length = 2 ^ m → fft x = dft x
  | 0, x, h => by
      obtain ⟨a, rfl⟩ := List.length_eq_one.mp (by simpa using h)
      rw [fft_single, dft]
      simp [twiddle_k_zero]
  | m + 1, x, h => by
      have hpow : 1 ≤ 2 ^ m := Nat.one_le_two_pow
      have hM : x.length = 2 * 2 ^ m := by rw [h]; ring
      have hN2 : ¬ x.length ≤ 1 := by omega
      have h2 : 2 * (x.length / 2) = x.length := by omega
      have hdiv : x.length / 2 = 2 ^ m := by omega
      have hlev : (evens x).length = 2 ^ m := by rw [length_evens]; omega
      have hlod : (odds x).length = 2 ^ m := by rw [length_odds]; omega
      have hev := fft_eq_dft m (evens x) hlev
      have hod := fft_eq_dft m (odds x) hlod
      have hMr : ((2 ^ m : ℕ) : ℝ) ≠ 0 := by positivity
      rw [fft, dif_neg hN2, h2, List.take_length, List.drop_length, hev, hod,
        List.append_nil, hdiv]
      have hentry : ∀ p, p < x.length →
          (((List.range (2 ^ m)).map fun k =>
              (dft (evens x)).getD k 0 + twiddle x.length k * (dft (odds x)).getD k 0)
            ++ ((List.range (2 ^ m)).map fun k =>
              (dft (evens x)).getD k 0 - twiddle x.length k * (dft (odds x)).getD k 0)).getD p 0
            = (dft x).getD p 0 := by
        intro p hplt
        have hAlen : ((List.range (2 ^ m)).map fun k =>
            (dft (evens x)).getD k 0 + twiddle x.length k * (dft (odds x)).getD k 0).length
            = 2 ^ m := by simp
        have hBlen : ((List.range (2 ^ m)).map fun k =>
            (dft (evens x)).getD k 0 - twiddle x.length k * (dft (odds x)).getD k 0).length
            = 2 ^ m := by simp
        rw [getD_dft x p hplt]
        have hsplit := sum_range_even_odd (2 ^ m) fun j => x.getD j 0 * twiddle x.length (j * p)
        by_cases hp : p < 2 ^ m
        · rw [getD_append_left _ _ _ _ (by rw [hAlen]; exact hp),
            getD_map_range _ _ _ _ hp,
            getD_dft (evens x) p (by rw [hlev]; exact hp),
            getD_dft (odds x) p (by rw [hlod]; exact hp), hlev, hlod]
          have heven : ∀ i ∈ Finset.range (2 ^ m),
              x.getD (2 * i) 0 * twiddle x.length (2 * i * p)
                = (evens x).getD i 0 * twiddle (2 ^ m) (i * p) := by
            intro i _
            rw [getD_evens, hM, show 2 * i * p = 2 * (i * p) by ring,
              twiddle_two_mul _ _ hMr]
          have hodd : ∀ i ∈ Finset.range (2 ^ m),
              x.getD (2 * i + 1) 0 * twiddle x.length ((2 * i + 1) * p)
                = twiddle x.length p * ((odds x).getD i 0 * twiddle (2 ^ m) (i * p)) := by
            intro i _
            rw [getD_odds, show (2 * i + 1) * p = 2 * (i * p) + p by ring, hM,
              twiddle_add, twiddle_two_mul _ _ hMr]
            ring
          rw [show Finset.range x.length = Finset.range (2 * 2 ^ m) from by rw [hM]]
          simp only [hsplit]
          rw [Finset.sum_congr rfl heven, Finset.sum_congr rfl hodd, ← Finset.mul_sum]
        · have hk : p - 2 ^ m < 2 ^ m := by omega
          rw [getD_append_right _ _ _ _ (by rw [hAlen]; omega)
              (by rw [hAlen, hBlen]; omega), hAlen,
            getD_map_range _ _ _ _ hk,
            getD_dft (evens x) _ (by rw [hlev]; exact hk),
            getD_dft (odds x) _ (by rw [hlod]; exact hk), hlev, hlod]
          have hpk : p = 2 ^ m + (p - 2 ^ m) := by omega
          have heven : ∀ i ∈ Finset.range (2 ^ m),
              x.getD (2 * i) 0 * twiddle x.length (2 * i * p)
                = (evens x).getD i 0 * twiddle (2 ^ m) (i * (p - 2 ^ m)) := by
            intro i _
            rw [getD_evens, hM]
            congr 1
            rw [show 2 * i * p = 2 * i * 2 ^ m + 2 * (i * (p - 2 ^ m)) from by
                conv_lhs => rw [hpk]
                ring,
              twiddle_add]
            rw [show (2 : ℕ) * i * 2 ^ m = 2 * i * 2 ^ m from rfl,
              twiddle_half _ _ hMr, twiddle_two_mul _ _ hMr, pow_mul]
            norm_num
          have hodd : ∀ i ∈ Finset.range (2 ^ m),
              x.getD (2 * i + 1) 0 * twiddle x.length ((2 * i + 1) * p)
                = -(twiddle x.length (p - 2 ^ m)
                    * ((odds x).getD i 0 * twiddle (2 ^ m) (i * (p - 2 ^ m)))) := by
            intro i _
            rw [getD_odds, hM]
            rw [show (2 * i + 1) * p
                  = (2 * i + 1) * 2 ^ m + (2 * (i * (p - 2 ^ m)) + (p - 2 ^ m)) from by
                conv_lhs => rw [hpk]
                ring,
              twiddle_add, twiddle_add, twiddle_half _ _ hMr, twiddle_two_mul _ _ hMr,
              pow_succ, pow_mul]
            norm_num
            ring
          rw [show Finset.range x.length = Finset.range (2 * 2 ^ m) from by rw [hM]]
          simp only [hsplit]
          rw [Finset.sum_congr rfl heven, Finset.sum_congr rfl hodd]
          rw [Finset.sum_neg_distrib, ← Finset.mul_sum]
          ring
      apply List.ext_getElem
      · simp only [List.length_append, List.length_map, List.length_range, length_dft]
        omega
      · intro p h1 h2
        rw [length_dft] at h2
        rw [← List.getD_eq_getElem _ 0 h1, ← List.getD_eq_getElem _ 0 (by rw [length_dft]; exact h2)]
        exact hentry p h2

theorem sum_cexpi_geom (N : ℕ) (d : ℤ) (hN : 0 < N) :
    ∑ k ∈ Finset.range N, cexpi (2 * PI * d * k / N)
      = if (N : ℤ) ∣ d then (N : ℂ) else 0 := by
  have hNr : (N : ℝ) ≠ 0 := Nat.cast_ne_zero.mpr (by omega)
  have hpi : PI ≠ 0 := by rw [PI]; exact Real.pi_ne_zero
  by_cases hdvd : (N : ℤ) ∣ d
  · rw [if_pos hdvd]
    obtain ⟨t, rfl⟩ := hdvd
    have hterm : ∀ k ∈ Finset.range N,
        cexpi (2 * PI * (((N : ℤ) * t : ℤ) : ℝ) * k / N) = 1 := by
      intro k _
      rw [show 2 * PI * (((N : ℤ) * t : ℤ) : ℝ) * (k : ℝ) / (N : ℝ)
            = 2 * PI * ((t * k : ℤ) : ℝ) from by
          push_cast
          field_simp
          ring]
      exact cexpi_int_two_pi (t * k)
    rw [Finset.sum_congr rfl hterm]
    simp
  · rw [if_neg hdvd]
    have h2pi : (2 * PI : ℝ) ≠ 0 := mul_ne_zero two_ne_zero hpi
    have hr1 : cexpi (2 * PI * d / N) ≠ 1 := by
      intro hone
      obtain ⟨t, ht⟩ := (cexpi_eq_one_iff _).mp hone
      apply hdvd
      refine ⟨t, ?_⟩
      field_simp at ht
      have h3 : (2 * PI) * (d : ℝ) = (2 * PI) * ((N : ℝ) * t) := by linear_combination ht
      have h4 : (d : ℝ) = (N : ℝ) * t := mul_left_cancel₀ h2pi h3
      exact_mod_cast h4
    have hterm : ∀ k ∈ Finset.range N,
        cexpi (2 * PI * d * k / N) = cexpi (2 * PI * d / N) ^ k := by
      intro k _
      rw [← cexpi_nat_mul]
      congr 1
      ring
    rw [Finset.sum_congr rfl hterm, geom_sum_eq hr1]
    have hrN : cexpi (2 * PI * d / N) ^ N = 1 := by
      rw [← cexpi_nat_mul,
        show (N : ℝ) * (2 * PI * d / N) = 2 * PI * (d : ℝ) from by field_simp]
      exact cexpi_int_two_pi d
    rw [hrN]
    simp

/-- C4: for every complex buffer whose length is a power of two, the
inverse transform undoes the forward transform exactly in exact real
arithmetic with the true π: `ifft (fft x) = x`. -/
theorem ifft_fft_roundtrip (x : List ℂ) (m : ℕ) (h : x.length = 2 ^ m) :
    ifft (fft x) = x := by
  have hone : 1 ≤ 2 ^ m := Nat.one_le_two_pow
  have hpos : 0 < x.length := by omega
  have hNc : (x.length : ℂ) ≠ 0 := Nat.cast_ne_zero.mpr (by omega)
  have hflen : (fft x).length = x.length := length_fft x
  have hfd : fft x = dft x := fft_eq_dft m x h
  have hylen : ((dft x).map fun z => (starRingEnd ℂ) z).length = 2 ^ m := by
    rw [List.length_map, length_dft, h]
  have hfd2 : fft ((dft x).map fun z => (starRingEnd ℂ) z)
      = dft ((dft x).map fun z => (starRingEnd ℂ) z) := fft_eq_dft m _ hylen
  rw [ifft, hfd, hfd2, length_dft]
  set y := (dft x).map fun z => (starRingEnd ℂ) z with hy
  have hylen2 : y.length = x.length := by rw [hy, List.length_map, length_dft]
  apply List.ext_getElem
  · rw [List.length_map, length_dft, hylen2]
  · intro j hj1 hj2
    have hj2' : j < x.length := hj2
    rw [List.getElem_map,
      ← List.getD_eq_getElem (dft y) 0 (by rw [length_dft, hylen2]; exact hj2'),
      getD_dft y j (by rw [hylen2]; exact hj2'), hylen2]
    have hnum : (starRingEnd ℂ)
        (∑ k ∈ Finset.range x.length, y.getD k 0 * twiddle x.length (k * j))
          = x.getD j 0 * (x.length : ℂ) := by
      rw [map_sum]
      have hterm1 : ∀ k ∈ Finset.range x.length,
          (starRingEnd ℂ) (y.getD k 0 * twiddle x.length (k * j))
            = (∑ l ∈ Finset.range x.length, x.getD l 0 * twiddle x.length (l * k))
                * cexpi (2 * PI * ((k * j : ℕ) : ℝ) / (x.length : ℝ)) := by
        intro k hk
        have hk' : k < x.length := Finset.mem_range.mp hk
        have hyk : y.getD k 0 = (starRingEnd ℂ) ((dft x).getD k 0) := by
          rw [hy, List.getD_eq_getElem _ 0 (by rw [List.length_map, length_dft]; exact hk'),
            List.getElem_map, List.getD_eq_getElem _ 0 (by rw [length_dft]; exact hk')]
        rw [map_mul, conj_twiddle, hyk, Complex.conj_conj, getD_dft x k hk']
      rw [Finset.sum_congr rfl hterm1]
      have hterm2 : ∀ k ∈ Finset.range x.length,
          (∑ l ∈ Finset.range x.length, x.getD l 0 * twiddle x.length (l * k))
              * cexpi (2 * PI * ((k * j : ℕ) : ℝ) / (x.length : ℝ))
            = ∑ l ∈ Finset.range x.length,
                x.getD l 0
                  * cexpi (2 * PI * (((j : ℤ) - (l : ℤ) : ℤ) : ℝ) * (k : ℝ)
                      / (x.length : ℝ)) := by
        intro k _
        rw [Finset.sum_mul]
        refine Finset.sum_congr rfl fun l _ => ?_
        rw [mul_assoc]
        congr 1
        rw [twiddle, ← cexpi_add]
        congr 1
        push_cast
        ring
      rw [Finset.sum_congr rfl hterm2, Finset.sum_comm]
      have hterm3 : ∀ l ∈ Finset.range x.length,
          (∑ k ∈ Finset.range x.length,
              x.getD l 0
                * cexpi (2 * PI * (((j : ℤ) - (l : ℤ) : ℤ) : ℝ) * (k : ℝ)
                    / (x.length : ℝ)))
            = x.getD l 0
                * (if (x.length : ℤ) ∣ ((j : ℤ) - (l : ℤ)) then ((x.length : ℕ) : ℂ) else 0) := by
        intro l _
        rw [← Finset.mul_sum, sum_cexpi_geom x.length ((j : ℤ) - (l : ℤ)) hpos]
      rw [Finset.sum_congr rfl hterm3]
      have hzero : ∀ l ∈ Finset.range x.length, l ≠ j →
          x.getD l 0
              * (if (x.length : ℤ) ∣ ((j : ℤ) - (l : ℤ)) then ((x.length : ℕ) : ℂ) else 0)
            = 0 := by
        intro l hl hlj
        have hl' : l < x.length := Finset.mem_range.mp hl
        have hnd : ¬ ((x.length : ℤ) ∣ ((j : ℤ) - (l : ℤ))) := by
          intro hdvd
          have := Int.eq_zero_of_dvd_of_natAbs_lt_natAbs hdvd (by omega)
          omega
        rw [if_neg hnd, mul_zero]
      have hnotin : j ∉ Finset.range x.length →
          x.getD j 0
              * (if (x.length : ℤ) ∣ ((j : ℤ) - (j : ℤ)) then ((x.length : ℕ) : ℂ) else 0)
            = 0 := by
        intro hj'
        exact absurd (Finset.mem_range.mpr hj2') hj'
      rw [Finset.sum_eq_single j hzero hnotin, sub_self, if_pos (dvd_zero _)]
    rw [hnum, mul_div_cancel_right₀ _ hNc, List.getD_eq_getElem _ 0 hj2']

/-- C4 witness: the round trip at the length-1 buffer `[2]`
(1 = 2^0). -/
theorem ifft_fft_roundtrip_witness :
    ([(2 : ℂ)].length = 2 ^ 0) ∧ ifft (fft [(2 : ℂ)]) = [2] :=
  ⟨rfl, ifft_fft_roundtrip [(2 : ℂ)] 0 rfl⟩

end

end FourierSpec
